import Mathlib

/-!
# Shallow embedding of the partitioned ring buffer (src/src/lib/core/prbuf.c)

The buffer lives in a caller-provided memory block. The block starts with a
packed 16-byte header of four little-endian u32 fields (version, size,
offset_begin, offset_end); the record region follows. Each record is a u32
size prefix followed by that many payload bytes. We model the record region
as a function from byte offsets (relative to the end of the header, i.e. to
prbuf_linear_begin) to byte values, and the header as a structure of Nat
fields, one per u32 field of struct prbuf_header. All u32 arithmetic of the
C source (pointer differences cast to uint32_t, u32 additions) is performed
modulo 2^32.
-/

namespace Prbuf

/-- 2^32, the modulus of all uint32_t arithmetic in the source. -/
def M32 : Nat := 4294967296

/-- sizeof(struct prbuf_header): four packed u32 fields. -/
def headerSize : Nat := 16

/-- Size prefix stored before each record (entry_meta_size in the source). -/
def entry_meta_size : Nat := 4

/-- Current prbuf implementation version (prbuf_version in the source). -/
def prbuf_version : Nat := 0

/-- Mark of unused space in the buffer: (uint32_t)(-1). -/
def prbuf_end_position : Nat := 4294967295

/-- Little-endian load of a u32 from four bytes at offset o. Bytes are taken
modulo 256, as C reads raw bytes. -/
def loadU32 (m : Nat → Nat) (o : Nat) : Nat :=
  m o % 256 + m (o + 1) % 256 * 256 + m (o + 2) % 256 * 65536 +
    m (o + 3) % 256 * 16777216

/-- Little-endian store of a u32 (store_u32 in the source). -/
def storeU32 (m : Nat → Nat) (o v : Nat) : Nat → Nat := fun i =>
  if i = o then v % 256
  else if i = o + 1 then v / 256 % 256
  else if i = o + 2 then v / 65536 % 256
  else if i = o + 3 then v / 16777216 % 256
  else m i

/-- Difference of two (unsigned) quantities computed in uint32_t, i.e. a
pointer difference cast to uint32_t: (a - b) mod 2^32. -/
def u32sub (a b : Nat) : Nat := (((a : Int) - (b : Int)) % (M32 : Int)).toNat

/-- struct prbuf_header: all metadata of the buffer. The offsets are relative
to prbuf_linear_begin, the first byte after the header. -/
structure PrbufHeader where
  version : Nat
  size : Nat
  offset_begin : Nat
  offset_end : Nat
deriving Repr, DecidableEq

/-- struct prbuf: a view of the backing memory, split into the parsed header
and the record region bytes (data i is the byte at prbuf_linear_begin + i). -/
structure Prbuf where
  header : PrbufHeader
  data : Nat → Nat

/-- struct prbuf_entry: size plus payload pointer, modelled as the offset of
the payload in the record region (none models a NULL pointer). -/
structure PrbufEntry where
  size : Nat
  ptr : Option Nat
deriving Repr, DecidableEq

/-- invalid_entry = { .size = (uint32_t)(-1), .ptr = NULL }. -/
def invalid_entry : PrbufEntry := { size := prbuf_end_position, ptr := none }

/-- prbuf_entry_is_invalid from the source. -/
def prbuf_entry_is_invalid (e : PrbufEntry) : Bool :=
  decide (e.size = invalid_entry.size) && decide (e.ptr = invalid_entry.ptr)

/-- buf->header->size - sizeof(struct prbuf_header) in uint32_t arithmetic:
the length of the record region (available space). -/
def availU (buf : Prbuf) : Nat := u32sub buf.header.size headerSize

/-- prbuf_record_alloc_size: data size + record header, as uint32_t. -/
def prbuf_record_alloc_size (size : Nat) : Nat := (size + entry_meta_size) % M32

/-- prbuf_has_before_end: buffer has at least size bytes between the write
head (prbuf_current_raw) and its linear end. The pointer difference is cast
to uint32_t in the source. -/
def prbuf_has_before_end (buf : Prbuf) (size : Nat) : Bool :=
  decide (u32sub (availU buf) buf.header.offset_end ≥ size)

/-- Result of prbuf_iterator_next: the updated iterator position, the entry
written to *result, and the return code. -/
structure NextRes where
  cur : Option Nat
  entry : PrbufEntry
  rc : Int
deriving Repr

/-- prbuf_iterator_next. The iterator position is the offset of the current
record in the record region; none models the NULL position set by
prbuf_iterator_create. *result is set to invalid_entry first and only
overwritten in the branches that fill it in. -/
def prbuf_iterator_next (buf : Prbuf) (cur : Option Nat) : NextRes :=
  match cur with
  | none =>
      let first := buf.header.offset_begin
      { cur := some first,
        entry := { size := loadU32 buf.data first,
                   ptr := some (first + entry_meta_size) },
        rc := 0 }
  | some c =>
      let csize := loadU32 buf.data c
      if csize > availU buf then
        { cur := some c, entry := invalid_entry, rc := -1 }
      else
        let next_record_ptr := c + entry_meta_size + csize
        if next_record_ptr = buf.header.offset_end then
          { cur := some c, entry := invalid_entry, rc := 0 }
        else
          let next :=
            if u32sub (availU buf) next_record_ptr < entry_meta_size then 0
            else if loadU32 buf.data next_record_ptr = prbuf_end_position then 0
            else next_record_ptr
          { cur := some next,
            entry := { size := loadU32 buf.data next,
                       ptr := some (next + entry_meta_size) },
            rc := 0 }

/-- One loop of prbuf_skip_record, with explicit fuel (the C loop terminates
on all states the source reaches; fuel makes the definition total). -/
def prbuf_skip_record_loop (buf : Prbuf) : Nat → Int → Nat → Nat
  | cur, to_store, 0 => cur
  | cur, to_store, fuel + 1 =>
      if to_store > 0 then
        let to_store2 :=
          to_store - (prbuf_record_alloc_size (loadU32 buf.data cur) : Int)
        let r := prbuf_iterator_next buf (some cur)
        let cur2 :=
          if r.rc ≠ 0 ∧ prbuf_entry_is_invalid r.entry = false then
            (prbuf_iterator_next buf none).cur.getD cur
          else
            r.cur.getD cur
        prbuf_skip_record_loop buf cur2 to_store2 fuel
      else cur

/-- prbuf_skip_record: skip records until to_store bytes are freed, starting
from the record at offset cur; returns the offset of the next record to be
overwritten. -/
def prbuf_skip_record (buf : Prbuf) (cur : Nat) (to_store : Int) : Nat :=
  prbuf_skip_record_loop buf cur to_store (buf.header.size + 1)

/-- prbuf_set_end_position: place the end mark after the last record when
there is room for it. -/
def prbuf_set_end_position (buf : Prbuf) : Prbuf :=
  if prbuf_has_before_end buf entry_meta_size then
    { buf with
      data := storeU32 buf.data buf.header.offset_end prbuf_end_position }
  else buf

/-- free_space in prbuf_prepare: (uint32_t)((char *)next - head), the gap
from the write head to the oldest record; may wrap modulo 2^32. -/
def prbuf_free_space (buf : Prbuf) : Nat :=
  u32sub buf.header.offset_begin buf.header.offset_end

/-- prbuf_prepare. Returns the updated buffer and the offset (in the record
region) of the reserved payload, or none when the record can never fit. -/
def prbuf_prepare (buf : Prbuf) (size : Nat) : Prbuf × Option Nat :=
  let alloc_size := prbuf_record_alloc_size size
  if alloc_size > availU buf then (buf, none)
  else if prbuf_has_before_end buf alloc_size then
    let head := buf.header.offset_end
    let buf1 :=
      if prbuf_free_space buf < alloc_size then
        { buf with
          header := { buf.header with
            offset_begin := prbuf_skip_record buf buf.header.offset_begin
              (alloc_size : Int) } }
      else buf
    ({ buf1 with data := storeU32 buf1.data head size },
     some (head + entry_meta_size))
  else
    let buf1 := prbuf_set_end_position buf
    let buf2 :=
      { buf1 with
        header := { buf1.header with
          offset_begin := prbuf_skip_record buf1 0 (alloc_size : Int) } }
    ({ buf2 with data := storeU32 buf2.data 0 size },
     some entry_meta_size)

/-- prbuf_commit. Advances offset_end past the record at the write head, or
restarts from the beginning of the record region when the record was placed
there by a wrapping prepare. -/
def prbuf_commit (buf : Prbuf) : Prbuf :=
  if prbuf_has_before_end buf entry_meta_size &&
      prbuf_has_before_end buf (loadU32 buf.data buf.header.offset_end) then
    { buf with
      header := { buf.header with
        offset_end := (buf.header.offset_end +
          prbuf_record_alloc_size (loadU32 buf.data buf.header.offset_end)) %
            M32 } }
  else
    { buf with
      header := { buf.header with
        offset_end := prbuf_record_alloc_size (loadU32 buf.data 0) } }

/-- prbuf_create: initialize a fresh buffer in a memory block whose record
region initially holds the bytes mem (the NDEBUG build leaves them as they
are; the debug build poisons them, which no theorem below depends on). A
single entry occupying the whole available space is placed at offset 0. -/
def prbuf_create (mem : Nat → Nat) (size : Nat) : Prbuf :=
  let available_space := u32sub size headerSize
  { header :=
      { version := prbuf_version, size := size,
        offset_begin := 0, offset_end := available_space },
    data := storeU32 mem 0 (u32sub available_space entry_meta_size) }

/-- The loop of prbuf_check: accumulate res.size (a uint32_t sum) over the
entries produced by iteration, with explicit fuel. -/
def prbuf_check_loop (buf : Prbuf) : Option Nat → Nat → Nat → Nat
  | _, total, 0 => total
  | cur, total, fuel + 1 =>
      let r := prbuf_iterator_next buf cur
      if r.rc = 0 ∧ prbuf_entry_is_invalid r.entry = false then
        prbuf_check_loop buf r.cur ((total + r.entry.size) % M32) fuel
      else total

/-- prbuf_check: the open-time validator. -/
def prbuf_check (buf : Prbuf) (fuel : Nat) : Bool :=
  if buf.header.version ≠ prbuf_version then false
  else decide (prbuf_check_loop buf none 0 fuel ≤ buf.header.size)

/-- Parse the header fields out of a raw byte region (buf->header = mem). -/
def prbuf_of_mem (mem : Nat → Nat) : Prbuf :=
  { header :=
      { version := loadU32 mem 0, size := loadU32 mem 4,
        offset_begin := loadU32 mem 8, offset_end := loadU32 mem 12 },
    data := fun i => mem (headerSize + i) }

/-- prbuf_open: adopt a raw byte region, failing when prbuf_check rejects. -/
def prbuf_open (mem : Nat → Nat) (fuel : Nat) : Option Prbuf :=
  let buf := prbuf_of_mem mem
  if prbuf_check buf fuel then some buf else none

/-- The backing bytes of a buffer: the serialized header followed by the
record region. Copying these bytes and opening the copy models the
recover-from-raw-memory use of the source. -/
def serializePrbuf (buf : Prbuf) : Nat → Nat := fun i =>
  if i < 4 then buf.header.version / 256 ^ i % 256
  else if i < 8 then buf.header.size / 256 ^ (i - 4) % 256
  else if i < 12 then buf.header.offset_begin / 256 ^ (i - 8) % 256
  else if i < 16 then buf.header.offset_end / 256 ^ (i - 12) % 256
  else buf.data (i - 16)

/-- memcpy of a byte list into the record region at offset o (the caller
filling the chunk returned by prbuf_prepare). Bytes are stored as chars,
i.e. modulo 256. -/
def memcpyBytes (m : Nat → Nat) (o : Nat) (payload : List Nat) : Nat → Nat :=
  fun i =>
    if o ≤ i ∧ i < o + payload.length then payload.getD (i - o) 0 % 256
    else m i

/-- One prepare/memcpy/commit cycle, as performed by the unit test: reserve
payload.length bytes, copy the payload, commit. When prepare refuses, the
buffer is returned unchanged. -/
def prbuf_put (buf : Prbuf) (payload : List Nat) : Prbuf :=
  let r := prbuf_prepare buf payload.length
  match r.2 with
  | some p => prbuf_commit { r.1 with data := memcpyBytes r.1.data p payload }
  | none => r.1

/-- A sequence of committed writes. -/
def prbuf_putSeq (buf : Prbuf) (ps : List (List Nat)) : Prbuf :=
  ps.foldl prbuf_put buf

/-- Collect the entries yielded by repeated prbuf_iterator_next calls, in the
way the unit test consumes the iterator: stop at a nonzero return code or at
an invalid entry. Fuel bounds the number of calls. -/
def prbuf_collect (buf : Prbuf) : Option Nat → Nat → List PrbufEntry
  | _, 0 => []
  | cur, fuel + 1 =>
      let r := prbuf_iterator_next buf cur
      if r.rc = 0 ∧ prbuf_entry_is_invalid r.entry = false then
        r.entry :: prbuf_collect buf r.cur fuel
      else []

/-- The payload bytes of an entry, read back from the record region. -/
def entryData (buf : Prbuf) (e : PrbufEntry) : List Nat :=
  match e.ptr with
  | none => []
  | some p => (List.range e.size).map fun i => buf.data (p + i) % 256

/-- Iteration result as a list of (size, payload bytes) pairs. -/
def collectPayloads (buf : Prbuf) (fuel : Nat) : List (Nat × List Nat) :=
  (prbuf_collect buf none fuel).map fun e => (e.size, entryData buf e)

/-- Modelled from the spec: the record footprint of §3.2 of the specification
(round_up(4 + payload_len, 4)); the source itself does not round the
allocation size. Used only to compare the capacity claim with the source. -/
def footprint_spec (len : Nat) : Nat := (entry_meta_size + len + 3) / 4 * 4

/-- Total allocation size of a list of payloads: each record needs its
payload plus the 4-byte size prefix. -/
def sumAlloc (ps : List (List Nat)) : Nat := (ps.map fun p => p.length + 4).sum

/-- The payloads ps are laid out as consecutive records in the record region
d starting at offset off: at each record offset the stored u32 is the payload
length and the following bytes are the payload. -/
def LinearLayout (d : Nat → Nat) : Nat → List (List Nat) → Prop
  | _, [] => True
  | off, p :: rest =>
      loadU32 d off = p.length ∧
      (∀ i, i < p.length → d (off + 4 + i) % 256 = p.getD i 0 % 256) ∧
      LinearLayout d (off + 4 + p.length) rest

/-- State of a buffer that holds exactly the committed payloads ps laid out
from the start of the record region, with no wrap-around. -/
def LinearState (N : Nat) (ps : List (List Nat)) (buf : Prbuf) : Prop :=
  buf.header.version = 0 ∧ buf.header.size = N ∧
  buf.header.offset_begin = 0 ∧ buf.header.offset_end = sumAlloc ps ∧
  LinearLayout buf.data 0 ps

/-- Entries the iterator is expected to yield for records laid out
consecutively from offset off. -/
def expectedEntries : Nat → List (List Nat) → List PrbufEntry
  | _, [] => []
  | off, p :: rest =>
      { size := p.length, ptr := some (off + 4) } ::
        expectedEntries (off + 4 + p.length) rest

/-! ## Arithmetic and byte-level lemmas -/

theorem M32_eq : M32 = 4294967296 := rfl

theorem u32sub_lt (a b : Nat) : u32sub a b < M32 := by
  unfold u32sub M32; omega

theorem u32sub_eq_sub {a b : Nat} (h1 : b ≤ a) (h2 : a - b < M32) :
    u32sub a b = a - b := by
  unfold u32sub M32 at *; omega

theorem u32sub_eq_wrap {a b : Nat} (h1 : a < b) (h2 : b - a ≤ M32) :
    u32sub a b = M32 - (b - a) := by
  unfold u32sub M32 at *; omega

theorem u32sub_self (a : Nat) : u32sub a a = 0 := by
  unfold u32sub M32; omega

theorem storeU32_frame {m : Nat → Nat} {o v i : Nat} (h : i < o ∨ o + 4 ≤ i) :
    storeU32 m o v i = m i := by
  unfold storeU32
  rw [if_neg (by omega), if_neg (by omega), if_neg (by omega),
    if_neg (by omega)]

theorem loadU32_congr {m1 m2 : Nat → Nat} {o : Nat}
    (h : ∀ i, o ≤ i → i < o + 4 → m1 i = m2 i) :
    loadU32 m1 o = loadU32 m2 o := by
  unfold loadU32
  rw [h o (by omega) (by omega), h (o + 1) (by omega) (by omega),
    h (o + 2) (by omega) (by omega), h (o + 3) (by omega) (by omega)]

theorem loadU32_lt (m : Nat → Nat) (o : Nat) : loadU32 m o < M32 := by
  unfold loadU32 M32; omega

theorem loadU32_storeU32_same (m : Nat → Nat) (o v : Nat) :
    loadU32 (storeU32 m o v) o = v % M32 := by
  have e0 : storeU32 m o v o = v % 256 := by unfold storeU32; simp
  have e1 : storeU32 m o v (o + 1) = v / 256 % 256 := by
    unfold storeU32; rw [if_neg (by omega), if_pos rfl]
  have e2 : storeU32 m o v (o + 2) = v / 65536 % 256 := by
    unfold storeU32; rw [if_neg (by omega), if_neg (by omega), if_pos rfl]
  have e3 : storeU32 m o v (o + 3) = v / 16777216 % 256 := by
    unfold storeU32
    rw [if_neg (by omega), if_neg (by omega), if_neg (by omega), if_pos rfl]
  unfold loadU32 M32
  rw [e0, e1, e2, e3]
  omega

theorem loadU32_storeU32_disjoint {m : Nat → Nat} {o v o2 : Nat}
    (h : o2 + 4 ≤ o ∨ o + 4 ≤ o2) :
    loadU32 (storeU32 m o v) o2 = loadU32 m o2 := by
  apply loadU32_congr
  intro i h1 h2
  exact storeU32_frame (by omega)

theorem memcpyBytes_frame {m : Nat → Nat} {o : Nat} {p : List Nat} {i : Nat}
    (h : i < o ∨ o + p.length ≤ i) : memcpyBytes m o p i = m i := by
  unfold memcpyBytes
  rw [if_neg (by omega)]

theorem memcpyBytes_in {m : Nat → Nat} {o : Nat} {p : List Nat} {i : Nat}
    (h : i < p.length) : memcpyBytes m o p (o + i) = p.getD i 0 % 256 := by
  unfold memcpyBytes
  rw [if_pos (by omega)]
  congr 2
  omega

theorem loadU32_memcpyBytes_disjoint {m : Nat → Nat} {o : Nat} {p : List Nat}
    {o2 : Nat} (h : o2 + 4 ≤ o ∨ o + p.length ≤ o2) :
    loadU32 (memcpyBytes m o p) o2 = loadU32 m o2 := by
  apply loadU32_congr
  intro i h1 h2
  exact memcpyBytes_frame (by omega)

/-! ## sumAlloc and layout lemmas -/

theorem sumAlloc_nil : sumAlloc [] = 0 := rfl

theorem sumAlloc_cons (p : List Nat) (ps : List (List Nat)) :
    sumAlloc (p :: ps) = p.length + 4 + sumAlloc ps := by
  unfold sumAlloc; simp [Nat.add_comm]

theorem sumAlloc_append (a b : List (List Nat)) :
    sumAlloc (a ++ b) = sumAlloc a + sumAlloc b := by
  unfold sumAlloc; simp

theorem sumAlloc_pos {ps : List (List Nat)} (h : ps ≠ [])
    (hpos : ∀ p ∈ ps, 0 < p.length) : 5 ≤ sumAlloc ps := by
  cases ps with
  | nil => exact absurd rfl h
  | cons p rest =>
      have hp : 0 < p.length := hpos p (List.mem_cons_self p rest)
      rw [sumAlloc_cons]
      omega

theorem LinearLayout_congr {d1 d2 : Nat → Nat} :
    ∀ (ps : List (List Nat)) (off : Nat),
      (∀ i, off ≤ i → i < off + sumAlloc ps → d1 i = d2 i) →
      LinearLayout d1 off ps → LinearLayout d2 off ps := by
  intro ps
  induction ps with
  | nil => intro off h hl; trivial
  | cons p rest ih =>
      intro off h hl
      obtain ⟨h1, h2, h3⟩ := hl
      have hsum : sumAlloc (p :: rest) = p.length + 4 + sumAlloc rest :=
        sumAlloc_cons p rest
      refine ⟨?_, ?_, ?_⟩
      · rw [← h1]
        apply loadU32_congr
        intro i hi1 hi2
        exact (h i hi1 (by omega)).symm
      · intro i hi
        rw [← h (off + 4 + i) (by omega) (by omega)]
        exact h2 i hi
      · apply ih (off + 4 + p.length)
        · intro i hi1 hi2
          exact h i (by omega) (by omega)
        · exact h3

theorem LinearLayout_append {d : Nat → Nat} :
    ∀ (a b : List (List Nat)) (off : Nat),
      LinearLayout d off a → LinearLayout d (off + sumAlloc a) b →
      LinearLayout d off (a ++ b) := by
  intro a
  induction a with
  | nil =>
      intro b off ha hb
      simpa [sumAlloc_nil] using hb
  | cons p rest ih =>
      intro b off ha hb
      obtain ⟨h1, h2, h3⟩ := ha
      refine ⟨h1, h2, ?_⟩
      apply ih
      · exact h3
      · have : off + sumAlloc (p :: rest) = off + 4 + p.length + sumAlloc rest := by
          rw [sumAlloc_cons]; omega
        rw [← this]
        exact hb

/-! ## Branch characterizations of prepare and commit -/

theorem set_end_position_header (buf : Prbuf) :
    (prbuf_set_end_position buf).header = buf.header := by
  unfold prbuf_set_end_position
  split <;> rfl

theorem prepare_none {buf : Prbuf} {size : Nat}
    (h : prbuf_record_alloc_size size > availU buf) :
    prbuf_prepare buf size = (buf, none) := by
  simp only [prbuf_prepare]
  rw [if_pos h]

theorem prepare_nonwrap_noevict {buf : Prbuf} {size : Nat}
    (h1 : ¬ prbuf_record_alloc_size size > availU buf)
    (h2 : prbuf_has_before_end buf (prbuf_record_alloc_size size) = true)
    (h3 : ¬ prbuf_free_space buf < prbuf_record_alloc_size size) :
    prbuf_prepare buf size =
      ({ buf with data := storeU32 buf.data buf.header.offset_end size },
       some (buf.header.offset_end + entry_meta_size)) := by
  simp only [prbuf_prepare]
  rw [if_neg h1, if_pos h2, if_neg h3]

theorem prepare_nonwrap_evict {buf : Prbuf} {size : Nat}
    (h1 : ¬ prbuf_record_alloc_size size > availU buf)
    (h2 : prbuf_has_before_end buf (prbuf_record_alloc_size size) = true)
    (h3 : prbuf_free_space buf < prbuf_record_alloc_size size) :
    prbuf_prepare buf size =
      ({ header := { buf.header with
           offset_begin := prbuf_skip_record buf buf.header.offset_begin
             (prbuf_record_alloc_size size : Int) },
         data := storeU32 buf.data buf.header.offset_end size },
       some (buf.header.offset_end + entry_meta_size)) := by
  simp only [prbuf_prepare]
  rw [if_neg h1, if_pos h2, if_pos h3]

theorem prepare_wrap {buf : Prbuf} {size : Nat}
    (h1 : ¬ prbuf_record_alloc_size size > availU buf)
    (h2 : ¬ prbuf_has_before_end buf (prbuf_record_alloc_size size) = true) :
    prbuf_prepare buf size =
      ({ header := { (prbuf_set_end_position buf).header with
           offset_begin := prbuf_skip_record (prbuf_set_end_position buf) 0
             (prbuf_record_alloc_size size : Int) },
         data := storeU32 (prbuf_set_end_position buf).data 0 size },
       some entry_meta_size) := by
  simp only [prbuf_prepare]
  rw [if_neg h1, if_neg h2]

theorem prepare_fst_header (buf : Prbuf) (len : Nat) :
    (prbuf_prepare buf len).1.header.version = buf.header.version ∧
    (prbuf_prepare buf len).1.header.size = buf.header.size ∧
    (prbuf_prepare buf len).1.header.offset_end = buf.header.offset_end := by
  simp only [prbuf_prepare]
  by_cases h1 : prbuf_record_alloc_size len > availU buf
  · rw [if_pos h1]
    exact ⟨rfl, rfl, rfl⟩
  · rw [if_neg h1]
    by_cases h2 : prbuf_has_before_end buf (prbuf_record_alloc_size len) = true
    · rw [if_pos h2]
      by_cases h3 : prbuf_free_space buf < prbuf_record_alloc_size len
      · rw [if_pos h3]
        exact ⟨rfl, rfl, rfl⟩
      · rw [if_neg h3]
        exact ⟨rfl, rfl, rfl⟩
    · rw [if_neg h2]
      refine ⟨?_, ?_, ?_⟩ <;>
        simp [set_end_position_header]

theorem prepare_snd (buf : Prbuf) (len : Nat) :
    (prbuf_prepare buf len).2 =
      if prbuf_record_alloc_size len > availU buf then none
      else if prbuf_has_before_end buf (prbuf_record_alloc_size len) then
        some (buf.header.offset_end + entry_meta_size)
      else some entry_meta_size := by
  simp only [prbuf_prepare]
  by_cases h1 : prbuf_record_alloc_size len > availU buf
  · rw [if_pos h1, if_pos h1]
  · rw [if_neg h1, if_neg h1]
    by_cases h2 : prbuf_has_before_end buf (prbuf_record_alloc_size len) = true
    · rw [if_pos h2, if_pos h2]
    · rw [if_neg h2, if_neg h2]

theorem commit_advance {buf : Prbuf}
    (h : (prbuf_has_before_end buf entry_meta_size &&
          prbuf_has_before_end buf
            (loadU32 buf.data buf.header.offset_end)) = true) :
    prbuf_commit buf =
      { buf with
        header := { buf.header with
          offset_end := (buf.header.offset_end +
            prbuf_record_alloc_size
              (loadU32 buf.data buf.header.offset_end)) % M32 } } := by
  unfold prbuf_commit
  rw [if_pos h]

theorem commit_restart {buf : Prbuf}
    (h : ¬ (prbuf_has_before_end buf entry_meta_size &&
            prbuf_has_before_end buf
              (loadU32 buf.data buf.header.offset_end)) = true) :
    prbuf_commit buf =
      { buf with
        header := { buf.header with
          offset_end := prbuf_record_alloc_size (loadU32 buf.data 0) } } := by
  unfold prbuf_commit
  rw [if_neg h]

/-! ## The check loop accumulates the sizes of the collected entries -/

theorem check_loop_eq (buf : Prbuf) :
    ∀ (fuel : Nat) (cur : Option Nat) (total : Nat), total < M32 →
      prbuf_check_loop buf cur total fuel =
        (total + ((prbuf_collect buf cur fuel).map PrbufEntry.size).sum) %
          M32 := by
  intro fuel
  induction fuel with
  | zero =>
      intro cur total ht
      simp only [prbuf_check_loop, prbuf_collect, List.map_nil, List.sum_nil,
        Nat.add_zero]
      rw [M32_eq] at ht ⊢
      omega
  | succ f ih =>
      intro cur total ht
      simp only [prbuf_check_loop, prbuf_collect]
      by_cases hc : (prbuf_iterator_next buf cur).rc = 0 ∧
          prbuf_entry_is_invalid (prbuf_iterator_next buf cur).entry = false
      · rw [if_pos hc, if_pos hc]
        rw [ih _ _ (Nat.mod_lt _ (by rw [M32_eq]; omega))]
        simp only [List.map_cons, List.sum_cons]
        rw [M32_eq] at ht ⊢
        omega
      · rw [if_neg hc, if_neg hc]
        simp only [List.map_nil, List.sum_nil, Nat.add_zero]
        rw [M32_eq] at ht ⊢
        omega

/-! ## The state right after create -/

theorem create_avail (mem : Nat → Nat) {N : Nat} (h1 : 16 ≤ N)
    (h2 : N < 2147483648) : availU (prbuf_create mem N) = N - 16 := by
  show u32sub N 16 = N - 16
  exact u32sub_eq_sub (by omega) (by rw [M32_eq]; omega)

theorem create_header (mem : Nat → Nat) {N : Nat} (h1 : 16 ≤ N)
    (h2 : N < 2147483648) :
    (prbuf_create mem N).header =
      { version := 0, size := N, offset_begin := 0, offset_end := N - 16 } := by
  have e : u32sub N 16 = N - 16 :=
    u32sub_eq_sub (by omega) (by rw [M32_eq]; omega)
  show ({ version := 0, size := N, offset_begin := 0,
           offset_end := u32sub N 16 } : PrbufHeader) = _
  rw [e]

theorem create_load0 (mem : Nat → Nat) {N : Nat} (h1 : 20 ≤ N)
    (h2 : N < 2147483648) :
    loadU32 (prbuf_create mem N).data 0 = N - 20 := by
  have e1 : u32sub N 16 = N - 16 :=
    u32sub_eq_sub (by omega) (by rw [M32_eq]; omega)
  have e2 : u32sub (N - 16) 4 = N - 20 :=
    u32sub_eq_sub (by omega) (by rw [M32_eq]; omega)
  show loadU32 (storeU32 mem 0 (u32sub (u32sub N 16) 4)) 0 = N - 20
  rw [e1, e2, loadU32_storeU32_same]
  rw [M32_eq]
  omega

theorem create_collect (mem : Nat → Nat) {N : Nat} (h1 : 20 ≤ N)
    (h2 : N < 2147483648) :
    ∀ fuel, 2 ≤ fuel →
      prbuf_collect (prbuf_create mem N) none fuel =
        [{ size := N - 20, ptr := some 4 }] := by
  intro fuel hfuel
  obtain ⟨f, rfl⟩ : ∃ f, fuel = f + 2 := ⟨fuel - 2, by omega⟩
  have hload := create_load0 mem h1 h2
  have havail := create_avail mem (by omega) h2
  have hend : (prbuf_create mem N).header.offset_end = N - 16 := by
    rw [create_header mem (by omega) h2]
  have hbegin : (prbuf_create mem N).header.offset_begin = 0 := by
    rw [create_header mem (by omega) h2]
  have hnext1 : prbuf_iterator_next (prbuf_create mem N) none =
      { cur := some 0, entry := { size := N - 20, ptr := some 4 }, rc := 0 } := by
    simp only [prbuf_iterator_next, hbegin, hload, entry_meta_size]
  have hnext2 : prbuf_iterator_next (prbuf_create mem N) (some 0) =
      { cur := some 0, entry := invalid_entry, rc := 0 } := by
    simp only [prbuf_iterator_next, hload, havail, entry_meta_size, hend]
    rw [if_neg (by omega), if_pos (by omega)]
  rw [show f + 2 = (f + 1) + 1 by rfl]
  rw [prbuf_collect, hnext1]
  rw [if_pos ⟨rfl, by simp [prbuf_entry_is_invalid, invalid_entry]⟩]
  rw [prbuf_collect, hnext2]
  rw [if_neg (by simp [prbuf_entry_is_invalid])]

/-! ## Serialization round trip and the validator on a fresh buffer -/

theorem parse_serialize {buf : Prbuf}
    (h1 : buf.header.version < M32) (h2 : buf.header.size < M32)
    (h3 : buf.header.offset_begin < M32) (h4 : buf.header.offset_end < M32) :
    prbuf_of_mem (serializePrbuf buf) = buf := by
  have e0 : ∀ i, i < 4 →
      serializePrbuf buf i = buf.header.version / 256 ^ i % 256 := by
    intro i hi
    unfold serializePrbuf
    rw [if_pos hi]
  have e4 : ∀ i, 4 ≤ i → i < 8 →
      serializePrbuf buf i = buf.header.size / 256 ^ (i - 4) % 256 := by
    intro i hi1 hi2
    unfold serializePrbuf
    rw [if_neg (by omega), if_pos (by omega)]
  have e8 : ∀ i, 8 ≤ i → i < 12 →
      serializePrbuf buf i =
        buf.header.offset_begin / 256 ^ (i - 8) % 256 := by
    intro i hi1 hi2
    unfold serializePrbuf
    rw [if_neg (by omega), if_neg (by omega), if_pos (by omega)]
  have e12 : ∀ i, 12 ≤ i → i < 16 →
      serializePrbuf buf i =
        buf.header.offset_end / 256 ^ (i - 12) % 256 := by
    intro i hi1 hi2
    unfold serializePrbuf
    rw [if_neg (by omega), if_neg (by omega), if_neg (by omega),
      if_pos (by omega)]
  have hv : loadU32 (serializePrbuf buf) 0 = buf.header.version := by
    unfold loadU32
    norm_num
    rw [e0 0 (by omega), e0 1 (by omega), e0 2 (by omega), e0 3 (by omega)]
    norm_num
    rw [M32_eq] at h1
    omega
  have hs : loadU32 (serializePrbuf buf) 4 = buf.header.size := by
    unfold loadU32
    norm_num
    rw [e4 4 (by omega) (by omega), e4 5 (by omega) (by omega),
      e4 6 (by omega) (by omega), e4 7 (by omega) (by omega)]
    norm_num
    rw [M32_eq] at h2
    omega
  have hb : loadU32 (serializePrbuf buf) 8 = buf.header.offset_begin := by
    unfold loadU32
    norm_num
    rw [e8 8 (by omega) (by omega), e8 9 (by omega) (by omega),
      e8 10 (by omega) (by omega), e8 11 (by omega) (by omega)]
    norm_num
    rw [M32_eq] at h3
    omega
  have he : loadU32 (serializePrbuf buf) 12 = buf.header.offset_end := by
    unfold loadU32
    norm_num
    rw [e12 12 (by omega) (by omega), e12 13 (by omega) (by omega),
      e12 14 (by omega) (by omega), e12 15 (by omega) (by omega)]
    norm_num
    rw [M32_eq] at h4
    omega
  have hdata : (fun i => serializePrbuf buf (headerSize + i)) = buf.data := by
    funext i
    show serializePrbuf buf (16 + i) = buf.data i
    unfold serializePrbuf
    rw [if_neg (by omega), if_neg (by omega), if_neg (by omega),
      if_neg (by omega)]
    congr 1
    omega
  unfold prbuf_of_mem
  rw [hv, hs, hb, he, hdata]

theorem create_check (mem : Nat → Nat) {N : Nat} (h1 : 20 ≤ N)
    (h2 : N < 2147483648) :
    ∀ fuel, 2 ≤ fuel → prbuf_check (prbuf_create mem N) fuel = true := by
  intro fuel hfuel
  unfold prbuf_check
  rw [if_neg (show ¬ (prbuf_create mem N).header.version ≠ prbuf_version
    from fun h => h rfl)]
  rw [check_loop_eq (prbuf_create mem N) fuel none 0 (by rw [M32_eq]; omega)]
  rw [create_collect mem h1 h2 fuel hfuel]
  show decide ((0 + (N - 20 + 0)) % M32 ≤ (prbuf_create mem N).header.size) =
    true
  have hsz : (prbuf_create mem N).header.size = N := rfl
  rw [hsz, M32_eq]
  simp only [decide_eq_true_eq]
  omega

/-! ## Claim C1: counterexample (empty sequence) -/

/-- C1 counterexample: for the empty sequence of prepare/commit pairs (which
trivially fits), iteration after create does not yield the empty list of
committed payloads: the buffer always contains the placeholder record that
create places over the whole record region. -/
theorem C1_empty_cex :
    collectPayloads (prbuf_putSeq (prbuf_create (fun _ => 0) 128) []) 3 ≠
      [] := by decide

/-! ## Claim C2 -/

/-- C2 counterexample: right after create on a 128-byte block the stored
offset_end field is 112 = N - 16 (the whole record region), not the record
region start (stored offset 0, absolute BASE_OFFSET = 16), and an iterator
yields an entry rather than nothing. -/
theorem C2_create_cex :
    (prbuf_create (fun _ => 0) 128).header.offset_end = 112 ∧
    (112 : Nat) ≠ 0 ∧ (112 : Nat) ≠ 16 ∧
    prbuf_collect (prbuf_create (fun _ => 0) 128) none 3 ≠ [] := by decide

/-- C2 (amended): for any memory block of size N with 20 ≤ N < 2^31,
prbuf_create writes header fields version = 0, size = N, begin = 0 but
end = N - 16, and places a placeholder record spanning the whole record
region; an iterator created immediately after create yields exactly that one
placeholder entry of size N - 20 (with payload at offset 4), then reports
end, rather than yielding no records. Moreover open of the same backing
bytes is accepted by the weak validator, returns the very same buffer, and
the opened buffer iterates to the same single placeholder entry. -/
theorem C2_create_state (mem : Nat → Nat) (N : Nat) (h1 : 20 ≤ N)
    (h2 : N < 2147483648) :
    (prbuf_create mem N).header =
      { version := 0, size := N, offset_begin := 0, offset_end := N - 16 } ∧
    (∀ fuel, 2 ≤ fuel →
      prbuf_collect (prbuf_create mem N) none fuel =
        [{ size := N - 20, ptr := some 4 }]) ∧
    ∀ fuel, 2 ≤ fuel →
      prbuf_open (serializePrbuf (prbuf_create mem N)) fuel =
        some (prbuf_create mem N) ∧
      prbuf_collect (prbuf_of_mem (serializePrbuf (prbuf_create mem N))) none
          fuel = [{ size := N - 20, ptr := some 4 }] := by
  have hparse : prbuf_of_mem (serializePrbuf (prbuf_create mem N)) =
      prbuf_create mem N := by
    apply parse_serialize
    · show (0 : Nat) < M32
      rw [M32_eq]
      omega
    · show N < M32
      rw [M32_eq]
      omega
    · show (0 : Nat) < M32
      rw [M32_eq]
      omega
    · show u32sub N headerSize < M32
      exact u32sub_lt _ _
  refine ⟨create_header mem (by omega) h2, create_collect mem h1 h2, ?_⟩
  intro fuel hfuel
  constructor
  · unfold prbuf_open
    rw [hparse, if_pos (create_check mem h1 h2 fuel hfuel)]
  · rw [hparse]
    exact create_collect mem h1 h2 fuel hfuel

/-- C2 witness: the amended statement evaluated at N = 128, including the
open of the serialized bytes. -/
theorem C2_create_state_witness :
    (prbuf_create (fun _ => 0) 128).header =
      { version := 0, size := 128, offset_begin := 0, offset_end := 112 } ∧
    prbuf_collect (prbuf_create (fun _ => 0) 128) none 2 =
      [{ size := 108, ptr := some 4 }] ∧
    prbuf_open (serializePrbuf (prbuf_create (fun _ => 0) 128)) 2 =
      some (prbuf_create (fun _ => 0) 128) ∧
    prbuf_collect
      (prbuf_of_mem (serializePrbuf (prbuf_create (fun _ => 0) 128))) none 2 =
      [{ size := 108, ptr := some 4 }] := by
  have h := C2_create_state (fun _ => 0) 128 (by omega) (by omega)
  refine ⟨by simpa using h.1, by simpa using h.2.1 2 le_rfl,
    (h.2.2 2 le_rfl).1, by simpa using (h.2.2 2 le_rfl).2⟩

/-! ## Claim C3 -/

/-- C3 counterexample: tampering the stored size field of a valid buffer (a
freshly created 24-byte buffer with its size field set to 100 ≠ 24) is still
accepted by open: prbuf_check never compares the stored size field with the
length of the byte region. -/
theorem C3_tamper_cex :
    (prbuf_open (serializePrbuf
      { prbuf_create (fun _ => 0) 24 with
        header := { (prbuf_create (fun _ => 0) 24).header with
          size := 100 } }) 10).isSome = true := by decide

/-- C3 (amended): open does reject version tampering: whenever the first
header word of the region is nonzero, prbuf_open reports the single invalid
result. Tampering with size, begin or end is only subjected to the weak
total-size walk and can be accepted (see the counterexample). -/
theorem C3_version_reject (mem : Nat → Nat) (fuel : Nat)
    (h : loadU32 mem 0 ≠ 0) : prbuf_open mem fuel = none := by
  have hc : prbuf_check (prbuf_of_mem mem) fuel = false := by
    unfold prbuf_check
    rw [if_pos (show (prbuf_of_mem mem).header.version ≠ prbuf_version from h)]
  unfold prbuf_open
  rw [if_neg (by rw [hc]; simp)]

/-- C3 witness: a region of all-one bytes has version word 16843009 ≠ 0 and
is rejected. -/
theorem C3_version_reject_witness : prbuf_open (fun _ => 1) 5 = none :=
  C3_version_reject (fun _ => 1) 5 (by decide)

/-! ## Claim C4 -/

/-- C4 counterexample: with N = 25 and len = 5, prepare(5) succeeds on a
fresh buffer although the claimed bound footprint(5) + BASE_OFFSET =
round_up(9, 4) + 16 = 28 exceeds 25: the source checks len + 4 against
N - 16 with no rounding. -/
theorem C4_footprint_cex :
    (prbuf_prepare (prbuf_create (fun _ => 0) 25) 5).2.isSome = true ∧
    ¬ footprint_spec 5 + headerSize ≤ 25 := by decide

/-- C4 (amended): for every buffer whose stored size field is N, prepare(len)
returns non-null iff len + 4 + HEADER_SIZE ≤ N (the allocation size is not
rounded); when it returns null the buffer is completely unchanged and any
subsequent prepare of a length that satisfies the bound succeeds. -/
theorem C4_capacity (buf : Prbuf) (N len : Nat)
    (hsize : buf.header.size = N) (hN1 : 16 ≤ N) (hN2 : N ≤ 2147483648)
    (hlen : 0 < len) (hlen2 : len < 2147483648) :
    ((prbuf_prepare buf len).2.isSome ↔ len + 4 + headerSize ≤ N) ∧
    ((prbuf_prepare buf len).2 = none →
      (prbuf_prepare buf len).1 = buf ∧
      ∀ len2, 0 < len2 → len2 + 4 + headerSize ≤ N →
        (prbuf_prepare buf len2).2.isSome) := by
  have havail : availU buf = N - 16 := by
    unfold availU
    rw [hsize, show headerSize = 16 from rfl]
    exact u32sub_eq_sub (by omega) (by rw [M32_eq]; omega)
  have main : ∀ l, l < 2147483648 →
      ((prbuf_prepare buf l).2.isSome ↔ l + 4 + headerSize ≤ N) := by
    intro l hl
    have halloc : prbuf_record_alloc_size l = l + 4 := by
      unfold prbuf_record_alloc_size entry_meta_size M32
      omega
    rw [prepare_snd, halloc, havail, show headerSize = 16 from rfl]
    by_cases hgt : l + 4 > N - 16
    · rw [if_pos hgt]
      simp only [Option.isSome_none, Bool.false_eq_true, false_iff]
      omega
    · rw [if_neg hgt]
      constructor
      · intro _
        omega
      · intro _
        split <;> rfl
  refine ⟨main len hlen2, ?_⟩
  intro hnone
  have h1 : ¬ len + 4 + headerSize ≤ N := by
    intro hle
    have h2 := (main len hlen2).mpr hle
    rw [hnone] at h2
    simp at h2
  have hgt : prbuf_record_alloc_size len > availU buf := by
    have halloc : prbuf_record_alloc_size len = len + 4 := by
      unfold prbuf_record_alloc_size entry_meta_size M32
      omega
    rw [halloc, havail]
    rw [show headerSize = 16 from rfl] at h1
    omega
  refine ⟨by rw [prepare_none hgt], ?_⟩
  intro len2 hl2 hle2
  have : len2 < 2147483648 := by
    rw [show headerSize = 16 from rfl] at hle2
    omega
  exact (main len2 this).mpr hle2

/-- C4 witness: on a fresh 128-byte buffer prepare(200) is refused while
prepare(4) succeeds. -/
theorem C4_capacity_witness :
    (prbuf_prepare (prbuf_create (fun _ => 0) 128) 200).2 = none ∧
    (prbuf_prepare (prbuf_create (fun _ => 0) 128) 4).2.isSome = true := by
  have h200 := C4_capacity (prbuf_create (fun _ => 0) 128) 128 200 rfl
    (by omega) (by omega) (by omega) (by omega)
  have h4 := C4_capacity (prbuf_create (fun _ => 0) 128) 128 4 rfl
    (by omega) (by omega) (by omega) (by omega)
  refine ⟨?_, h4.1.mpr (by decide)⟩
  exact Option.not_isSome_iff_eq_none.mp
    (fun hh => by have := h200.1.mp hh; revert this; decide)

/-! ## Claim C5 -/

/-- C5 (code bug): recover-from-bytes fails on a legally constructed buffer.
After create on 26 bytes and three committed writes of payload lengths
1, 1, 2, copying the backing bytes and calling open on the copy is rejected:
during the third prepare, prbuf_skip_record stops at the last live record
instead of advancing past it, offset_begin is left pointing at bytes that the
new payload then overwrites, and the resulting region no longer passes
prbuf_check. -/
theorem C5_recover_bug :
    (prbuf_open (serializePrbuf (prbuf_putSeq (prbuf_create (fun _ => 0) 26)
      [[17], [34], [170, 187]])) 20).isNone = true := by decide

/-! ## Claim C6 -/

/-- C6 (code bug): a successful prepare+commit can corrupt the retained
records instead of merely dropping an oldest prefix. After create on 28 bytes
and committed writes of lengths 1, 2 and 2, the live sequence is a single
garbage entry of size 187 (a byte of the newest payload read back as a
length), which is not a suffix of the previous live records followed by the
new one: all their sizes lie in {1, 2}. -/
theorem C6_eviction_bug :
    (prbuf_collect (prbuf_putSeq (prbuf_create (fun _ => 0) 28)
      [[17], [34, 51], [170, 187]]) none 20).map PrbufEntry.size =
      [187] := by decide

/-! ## Claim C7 -/

/-- C7: prbuf_prepare never modifies offset_end, whatever the buffer state
and requested length (only offset_begin and data bytes change), so a
reservation that is never committed leaves offset_end unchanged; moreover a
second prepare of the same length without an intervening commit returns the
same chunk again, silently overwriting the first reservation. -/
theorem C7_prepare_keeps_end (buf : Prbuf) (len : Nat) :
    (prbuf_prepare buf len).1.header.offset_end = buf.header.offset_end ∧
    (prbuf_prepare (prbuf_prepare buf len).1 len).2 =
      (prbuf_prepare buf len).2 := by
  obtain ⟨hv, hs, he⟩ := prepare_fst_header buf len
  refine ⟨he, ?_⟩
  have havail : availU (prbuf_prepare buf len).1 = availU buf := by
    unfold availU
    rw [hs]
  have hhbe : prbuf_has_before_end (prbuf_prepare buf len).1
      (prbuf_record_alloc_size len) =
      prbuf_has_before_end buf (prbuf_record_alloc_size len) := by
    unfold prbuf_has_before_end
    rw [havail, he]
  rw [prepare_snd, prepare_snd, havail, he, hhbe]

/-! ## Claim C8 -/

/-- C8: the implemented open-time validator prbuf_check accepts exactly the
regions whose header version is 0 and whose accumulated entry sizes (a u32
sum over the entries its iteration visits) do not exceed the stored size
field; it performs no walk checking arrival exactly at offset_end. -/
theorem C8_check_weak (buf : Prbuf) (fuel : Nat) :
    prbuf_check buf fuel = true ↔
      buf.header.version = 0 ∧
      ((prbuf_collect buf none fuel).map PrbufEntry.size).sum % M32 ≤
        buf.header.size := by
  unfold prbuf_check
  by_cases hv : buf.header.version ≠ prbuf_version
  · rw [if_pos hv]
    simp only [prbuf_version] at hv
    simp [hv]
  · rw [if_neg hv]
    push_neg at hv
    rw [check_loop_eq buf fuel none 0 (by rw [M32_eq]; omega)]
    simp only [prbuf_version] at hv
    simp [hv]

/-! ## Claim C9 -/

/-- C9 (code bug): the header offsets do not always stay inside the record
region. On a 36-byte buffer, committing a 4-byte record and then a 12-byte
record whose payload bytes encode the u32 value 12 at the position of the end
mark makes prbuf_commit read the forged size and set offset_end = 24, which
exceeds N - HEADER_SIZE = 20; the next operation would already violate the
assertion linear_end >= current_raw inside prbuf_has_before_end. -/
theorem C9_offset_bug :
    (prbuf_putSeq (prbuf_create (fun _ => 0) 36)
      [[1, 2, 3, 4],
       [9, 9, 9, 9, 12, 0, 0, 0, 9, 9, 9, 9]]).header.offset_end = 24 ∧
    36 - headerSize < 24 := by decide

/-! ## Claim C10 -/

/-- C10 counterexample: in the reachable state after create on 32 bytes and
three committed 4-byte writes, offset_begin = offset_end = 8, so the claimed
hypothesis offset_begin ≤ offset_end holds and the size is below 2^31; the
non-wrapping branch is taken (has_before_end holds for the allocation), yet
the 32-bit free_space value is 0, below the allocation size, and the branch
does evict: offset_begin changes. -/
theorem C10_free_space_cex :
    (prbuf_putSeq (prbuf_create (fun _ => 0) 32)
        [[1, 1, 1, 1], [2, 2, 2, 2], [3, 3, 3, 3]]).header.offset_begin ≤
      (prbuf_putSeq (prbuf_create (fun _ => 0) 32)
        [[1, 1, 1, 1], [2, 2, 2, 2], [3, 3, 3, 3]]).header.offset_end ∧
    (prbuf_putSeq (prbuf_create (fun _ => 0) 32)
        [[1, 1, 1, 1], [2, 2, 2, 2], [3, 3, 3, 3]]).header.size <
      2147483648 ∧
    prbuf_has_before_end (prbuf_putSeq (prbuf_create (fun _ => 0) 32)
        [[1, 1, 1, 1], [2, 2, 2, 2], [3, 3, 3, 3]])
      (prbuf_record_alloc_size 4) = true ∧
    prbuf_free_space (prbuf_putSeq (prbuf_create (fun _ => 0) 32)
        [[1, 1, 1, 1], [2, 2, 2, 2], [3, 3, 3, 3]]) <
      prbuf_record_alloc_size 4 ∧
    (prbuf_prepare (prbuf_putSeq (prbuf_create (fun _ => 0) 32)
        [[1, 1, 1, 1], [2, 2, 2, 2], [3, 3, 3, 3]]) 4).1.header.offset_begin ≠
      (prbuf_putSeq (prbuf_create (fun _ => 0) 32)
        [[1, 1, 1, 1], [2, 2, 2, 2], [3, 3, 3, 3]]).header.offset_begin := by
  decide

/-- C10 (amended): in prepare's non-wrapping branch, for a buffer of size
below 2^31 whose oldest record lies strictly before the write head
(offset_begin < offset_end, offsets inside the record region), the free-space
value computed as a 32-bit difference wraps modulo 2^32 to at least the
allocation size, so the branch performs no eviction and offset_begin is
unchanged. -/
theorem C10_no_evict (buf : Prbuf) (len : Nat)
    (h16 : 16 ≤ buf.header.size) (hsz : buf.header.size ≤ 2147483648)
    (hlt : buf.header.offset_begin < buf.header.offset_end)
    (hend : buf.header.offset_end ≤ availU buf)
    (hcap : prbuf_record_alloc_size len ≤ availU buf)
    (hbe : prbuf_has_before_end buf (prbuf_record_alloc_size len) = true) :
    prbuf_record_alloc_size len ≤ prbuf_free_space buf ∧
    (prbuf_prepare buf len).1.header.offset_begin =
      buf.header.offset_begin := by
  have havail : availU buf = buf.header.size - 16 := by
    unfold availU
    rw [show headerSize = 16 from rfl]
    exact u32sub_eq_sub (by omega) (by rw [M32_eq]; omega)
  rw [havail] at hend hcap
  have hfree : prbuf_free_space buf =
      M32 - (buf.header.offset_end - buf.header.offset_begin) := by
    unfold prbuf_free_space
    exact u32sub_eq_wrap hlt (by rw [M32_eq]; omega)
  have h1 : prbuf_record_alloc_size len ≤ prbuf_free_space buf := by
    rw [hfree, M32_eq]
    omega
  refine ⟨h1, ?_⟩
  rw [prepare_nonwrap_noevict (by omega) hbe (by omega)]

/-- C10 witness: a linear buffer state with the oldest record at 0 and the
write head at 8 in a 32-byte buffer: free_space wraps to 2^32 - 8 ≥ 8 and
prepare(4) leaves offset_begin untouched. -/
theorem C10_no_evict_witness :
    prbuf_record_alloc_size 4 ≤
      prbuf_free_space (⟨⟨0, 32, 0, 8⟩, fun _ => 0⟩ : Prbuf) ∧
    (prbuf_prepare (⟨⟨0, 32, 0, 8⟩, fun _ => 0⟩ : Prbuf)
        4).1.header.offset_begin =
      (⟨⟨0, 32, 0, 8⟩, fun _ => 0⟩ : Prbuf).header.offset_begin :=
  C10_no_evict (⟨⟨0, 32, 0, 8⟩, fun _ => 0⟩ : Prbuf) 4
    (by decide) (by decide) (by decide) (by decide) (by decide) (by decide)

/-! ## Helper lemmas for the round-trip proof -/

theorem skip_loop_stop {buf : Prbuf} {c : Nat} {ts : Int} {fuel : Nat}
    (h : ¬ ts > 0) : prbuf_skip_record_loop buf c ts fuel = c := by
  cases fuel with
  | zero => rfl
  | succ f =>
      rw [prbuf_skip_record_loop, if_neg h]

theorem skip_loop_step {buf : Prbuf} {c : Nat} {ts : Int} {fuel : Nat}
    (h : ts > 0) :
    prbuf_skip_record_loop buf c ts (fuel + 1) =
      prbuf_skip_record_loop buf
        (if (prbuf_iterator_next buf (some c)).rc ≠ 0 ∧
            prbuf_entry_is_invalid (prbuf_iterator_next buf (some c)).entry =
              false then
          (prbuf_iterator_next buf none).cur.getD c
        else (prbuf_iterator_next buf (some c)).cur.getD c)
        (ts - (prbuf_record_alloc_size (loadU32 buf.data c) : Int)) fuel := by
  rw [prbuf_skip_record_loop, if_pos h]

theorem entry_some_not_invalid (s p : Nat) :
    prbuf_entry_is_invalid { size := s, ptr := some p } = false := by
  simp [prbuf_entry_is_invalid, invalid_entry]

theorem invalid_entry_invalid : prbuf_entry_is_invalid invalid_entry = true :=
  by simp [prbuf_entry_is_invalid]

theorem next_at_end {buf : Prbuf} {c lenc : Nat}
    (hload : loadU32 buf.data c = lenc) (hle : lenc ≤ availU buf)
    (heq : c + 4 + lenc = buf.header.offset_end) :
    prbuf_iterator_next buf (some c) =
      { cur := some c, entry := invalid_entry, rc := 0 } := by
  simp only [prbuf_iterator_next, hload, entry_meta_size]
  rw [if_neg (by omega), if_pos heq]

theorem next_linear {buf : Prbuf} {c lenc : Nat}
    (hload : loadU32 buf.data c = lenc) (hle : lenc ≤ availU buf)
    (hne : ¬ c + 4 + lenc = buf.header.offset_end)
    (hroom : c + 4 + lenc + 4 ≤ availU buf)
    (hnotmark : ¬ loadU32 buf.data (c + 4 + lenc) = prbuf_end_position) :
    prbuf_iterator_next buf (some c) =
      { cur := some (c + 4 + lenc),
        entry := { size := loadU32 buf.data (c + 4 + lenc),
                   ptr := some (c + 4 + lenc + 4) },
        rc := 0 } := by
  have hM : availU buf < M32 := u32sub_lt _ _
  have hsub : u32sub (availU buf) (c + 4 + lenc) =
      availU buf - (c + 4 + lenc) :=
    u32sub_eq_sub (by omega) (by omega)
  simp only [prbuf_iterator_next, hload, entry_meta_size]
  rw [if_neg (by omega), if_neg hne, hsub, if_neg (by omega), if_neg hnotmark]

theorem collect_cons {buf : Prbuf} {cur : Option Nat} {fuel : Nat}
    (hrc : (prbuf_iterator_next buf cur).rc = 0)
    (hinv : prbuf_entry_is_invalid (prbuf_iterator_next buf cur).entry =
      false) :
    prbuf_collect buf cur (fuel + 1) =
      (prbuf_iterator_next buf cur).entry ::
        prbuf_collect buf (prbuf_iterator_next buf cur).cur fuel := by
  simp only [prbuf_collect]
  rw [if_pos ⟨hrc, hinv⟩]

theorem collect_stop {buf : Prbuf} {cur : Option Nat} {fuel : Nat}
    (h : ¬ ((prbuf_iterator_next buf cur).rc = 0 ∧
        prbuf_entry_is_invalid (prbuf_iterator_next buf cur).entry = false)) :
    prbuf_collect buf cur (fuel + 1) = [] := by
  simp only [prbuf_collect]
  rw [if_neg h]

theorem set_end_position_id {buf : Prbuf}
    (h : ¬ prbuf_has_before_end buf entry_meta_size = true) :
    prbuf_set_end_position buf = buf := by
  unfold prbuf_set_end_position
  rw [if_neg h]

theorem put_first (mem : Nat → Nat) {N : Nat} (p : List Nat)
    (h1 : 20 ≤ N) (h2 : N < 2147483648)
    (hp : 0 < p.length) (hfit : p.length + 4 ≤ N - 16) :
    LinearState N [p] (prbuf_put (prbuf_create mem N) p) := by
  have havail := create_avail mem (by omega) h2
  have hhd := create_header mem (by omega) h2
  have hend : (prbuf_create mem N).header.offset_end = N - 16 := by rw [hhd]
  have hload0 := create_load0 mem h1 h2
  have halloc : prbuf_record_alloc_size p.length = p.length + 4 := by
    unfold prbuf_record_alloc_size entry_meta_size M32
    omega
  have hnotgt :
      ¬ prbuf_record_alloc_size p.length > availU (prbuf_create mem N) := by
    rw [halloc, havail]
    omega
  have hsubz : u32sub (availU (prbuf_create mem N))
      (prbuf_create mem N).header.offset_end = 0 := by
    rw [havail, hend]
    exact u32sub_self _
  have hbe : ¬ prbuf_has_before_end (prbuf_create mem N)
      (prbuf_record_alloc_size p.length) = true := by
    unfold prbuf_has_before_end
    rw [hsubz, halloc]
    simp
  have hbe4 : ¬ prbuf_has_before_end (prbuf_create mem N) entry_meta_size =
      true := by
    unfold prbuf_has_before_end
    rw [hsubz]
    simp [entry_meta_size]
  have hsetend := set_end_position_id hbe4
  have hnext0 : prbuf_iterator_next (prbuf_create mem N) (some 0) =
      { cur := some 0, entry := invalid_entry, rc := 0 } :=
    next_at_end hload0 (by rw [havail]; omega) (by rw [hend]; omega)
  have hskip : prbuf_skip_record (prbuf_create mem N) 0
      ((p.length + 4 : Nat) : Int) = 0 := by
    unfold prbuf_skip_record
    have hsz : (prbuf_create mem N).header.size = N := by rw [hhd]
    rw [hsz]
    rw [skip_loop_step (by push_cast; omega)]
    rw [hload0, hnext0]
    rw [if_neg (by simp)]
    have hal : prbuf_record_alloc_size (N - 20) = N - 16 := by
      unfold prbuf_record_alloc_size entry_meta_size M32
      omega
    rw [hal]
    apply skip_loop_stop
    push_cast
    omega
  have hprep : prbuf_prepare (prbuf_create mem N) p.length =
      ({ header := { (prbuf_create mem N).header with offset_begin := 0 },
         data := storeU32 (prbuf_create mem N).data 0 p.length },
       some 4) := by
    rw [prepare_wrap hnotgt hbe, hsetend, halloc, hskip]
    rfl
  have hput : prbuf_put (prbuf_create mem N) p =
      prbuf_commit
        { header := { (prbuf_create mem N).header with offset_begin := 0 },
          data := memcpyBytes
            (storeU32 (prbuf_create mem N).data 0 p.length) 4 p } := by
    simp only [prbuf_put]
    rw [hprep]
  rw [hput]
  have hszP :
      ({ header := { (prbuf_create mem N).header with offset_begin := 0 },
         data := memcpyBytes
           (storeU32 (prbuf_create mem N).data 0 p.length) 4 p } :
        Prbuf).header.size = N := by
    show (prbuf_create mem N).header.size = N
    rw [hhd]
  have havailP : availU
      { header := { (prbuf_create mem N).header with offset_begin := 0 },
        data := memcpyBytes
          (storeU32 (prbuf_create mem N).data 0 p.length) 4 p } = N - 16 := by
    unfold availU
    rw [hszP, show headerSize = 16 from rfl]
    exact u32sub_eq_sub (by omega) (by rw [M32_eq]; omega)
  have hendP :
      ({ header := { (prbuf_create mem N).header with offset_begin := 0 },
         data := memcpyBytes
           (storeU32 (prbuf_create mem N).data 0 p.length) 4 p } :
        Prbuf).header.offset_end = N - 16 := by
    show (prbuf_create mem N).header.offset_end = N - 16
    rw [hhd]
  have hbe4P : prbuf_has_before_end
      { header := { (prbuf_create mem N).header with offset_begin := 0 },
        data := memcpyBytes
          (storeU32 (prbuf_create mem N).data 0 p.length) 4 p }
      entry_meta_size = false := by
    unfold prbuf_has_before_end
    rw [havailP, hendP, u32sub_self]
    simp [entry_meta_size]
  have hcond : ¬ (prbuf_has_before_end
      { header := { (prbuf_create mem N).header with offset_begin := 0 },
        data := memcpyBytes
          (storeU32 (prbuf_create mem N).data 0 p.length) 4 p }
      entry_meta_size &&
      prbuf_has_before_end
      { header := { (prbuf_create mem N).header with offset_begin := 0 },
        data := memcpyBytes
          (storeU32 (prbuf_create mem N).data 0 p.length) 4 p }
      (loadU32 (memcpyBytes
        (storeU32 (prbuf_create mem N).data 0 p.length) 4 p)
        ({ header := { (prbuf_create mem N).header with offset_begin := 0 },
           data := memcpyBytes
             (storeU32 (prbuf_create mem N).data 0 p.length) 4 p } :
          Prbuf).header.offset_end)) = true := by
    rw [hbe4P]
    simp
  rw [commit_restart hcond]
  have hloadP0 : loadU32 (memcpyBytes
      (storeU32 (prbuf_create mem N).data 0 p.length) 4 p) 0 = p.length := by
    rw [loadU32_memcpyBytes_disjoint (Or.inl (by omega)),
      loadU32_storeU32_same, M32_eq]
    omega
  refine ⟨rfl, hszP, rfl, ?_, ?_, ?_, trivial⟩
  · show prbuf_record_alloc_size (loadU32 (memcpyBytes
      (storeU32 (prbuf_create mem N).data 0 p.length) 4 p) 0) = sumAlloc [p]
    rw [hloadP0, halloc, sumAlloc_cons, sumAlloc_nil]
  · exact hloadP0
  · intro i hi
    show memcpyBytes (storeU32 (prbuf_create mem N).data 0 p.length) 4 p
        (0 + 4 + i) % 256 = p.getD i 0 % 256
    have e : (0 : Nat) + 4 + i = 4 + i := by omega
    rw [e, memcpyBytes_in hi]
    omega

theorem put_step {N : Nat} {ps : List (List Nat)} {buf : Prbuf}
    (p : List Nat) (hstate : LinearState N ps buf) (hne : ps ≠ [])
    (hpos : ∀ q ∈ ps, 0 < q.length) (hp : 0 < p.length)
    (hfit : sumAlloc ps + (p.length + 4) ≤ N - 16)
    (hN : 20 ≤ N) (hN2 : N < 2147483648) :
    LinearState N (ps ++ [p]) (prbuf_put buf p) := by
  obtain ⟨hv, hs, hb, he, hl⟩ := hstate
  have hS5 : 5 ≤ sumAlloc ps := sumAlloc_pos hne hpos
  have havail : availU buf = N - 16 := by
    unfold availU
    rw [hs, show headerSize = 16 from rfl]
    exact u32sub_eq_sub (by omega) (by rw [M32_eq]; omega)
  have halloc : prbuf_record_alloc_size p.length = p.length + 4 := by
    unfold prbuf_record_alloc_size entry_meta_size M32
    omega
  have hnotgt : ¬ prbuf_record_alloc_size p.length > availU buf := by
    rw [halloc, havail]
    omega
  have hsub : u32sub (availU buf) buf.header.offset_end =
      N - 16 - sumAlloc ps := by
    rw [havail, he]
    exact u32sub_eq_sub (by omega) (by rw [M32_eq]; omega)
  have hbe : prbuf_has_before_end buf (prbuf_record_alloc_size p.length) =
      true := by
    unfold prbuf_has_before_end
    rw [hsub, halloc]
    simp only [ge_iff_le, decide_eq_true_eq]
    omega
  have hfree : prbuf_free_space buf = M32 - sumAlloc ps := by
    unfold prbuf_free_space
    rw [hb, he]
    have h0 := u32sub_eq_wrap (a := 0) (b := sumAlloc ps) (by omega)
      (by rw [M32_eq]; omega)
    simpa using h0
  have hnoevict :
      ¬ prbuf_free_space buf < prbuf_record_alloc_size p.length := by
    rw [hfree, halloc, M32_eq]
    omega
  have hprep := prepare_nonwrap_noevict hnotgt hbe hnoevict
  have hput : prbuf_put buf p =
      prbuf_commit
        { header := buf.header,
          data := memcpyBytes
            (storeU32 buf.data buf.header.offset_end p.length)
            (buf.header.offset_end + 4) p } := by
    simp only [prbuf_put]
    rw [hprep]
    rfl
  rw [hput, he]
  have hszP : ({ header := buf.header,
                 data := memcpyBytes (storeU32 buf.data (sumAlloc ps) p.length)
                   (sumAlloc ps + 4) p } : Prbuf).header.size = N := hs
  have havailP : availU { header := buf.header,
                          data := memcpyBytes
                            (storeU32 buf.data (sumAlloc ps) p.length)
                            (sumAlloc ps + 4) p } = N - 16 := by
    unfold availU
    rw [hszP, show headerSize = 16 from rfl]
    exact u32sub_eq_sub (by omega) (by rw [M32_eq]; omega)
  have hendP : ({ header := buf.header,
                  data := memcpyBytes (storeU32 buf.data (sumAlloc ps) p.length)
                    (sumAlloc ps + 4) p } : Prbuf).header.offset_end =
      sumAlloc ps := he
  have hloadPend : loadU32
      (memcpyBytes (storeU32 buf.data (sumAlloc ps) p.length)
        (sumAlloc ps + 4) p) (sumAlloc ps) = p.length := by
    rw [loadU32_memcpyBytes_disjoint (Or.inl (by omega)),
      loadU32_storeU32_same, M32_eq]
    omega
  have hsub2 : u32sub (N - 16) (sumAlloc ps) = N - 16 - sumAlloc ps :=
    u32sub_eq_sub (by omega) (by rw [M32_eq]; omega)
  have hcond : (prbuf_has_before_end
      { header := buf.header,
        data := memcpyBytes (storeU32 buf.data (sumAlloc ps) p.length)
                  (sumAlloc ps + 4) p } entry_meta_size &&
      prbuf_has_before_end
      { header := buf.header,
        data := memcpyBytes (storeU32 buf.data (sumAlloc ps) p.length)
                  (sumAlloc ps + 4) p }
      (loadU32 (memcpyBytes (storeU32 buf.data (sumAlloc ps) p.length)
        (sumAlloc ps + 4) p)
        ({ header := buf.header,
           data := memcpyBytes (storeU32 buf.data (sumAlloc ps) p.length)
                     (sumAlloc ps + 4) p } : Prbuf).header.offset_end)) =
      true := by
    rw [hendP, hloadPend]
    unfold prbuf_has_before_end
    rw [havailP, hendP, hsub2]
    simp only [ge_iff_le, decide_eq_true_eq, Bool.and_eq_true, entry_meta_size]
    omega
  rw [commit_advance hcond]
  refine ⟨hv, hszP, hb, ?_, ?_⟩
  · show (({ header := buf.header,
             data := memcpyBytes (storeU32 buf.data (sumAlloc ps) p.length)
               (sumAlloc ps + 4) p } : Prbuf).header.offset_end +
      prbuf_record_alloc_size (loadU32
        (memcpyBytes (storeU32 buf.data (sumAlloc ps) p.length)
          (sumAlloc ps + 4) p)
        ({ header := buf.header,
           data := memcpyBytes (storeU32 buf.data (sumAlloc ps) p.length)
                     (sumAlloc ps + 4) p } : Prbuf).header.offset_end)) % M32 =
      sumAlloc (ps ++ [p])
    rw [hendP, hloadPend, halloc, sumAlloc_append, sumAlloc_cons, sumAlloc_nil,
      M32_eq]
    omega
  · show LinearLayout
      (memcpyBytes (storeU32 buf.data (sumAlloc ps) p.length)
        (sumAlloc ps + 4) p) 0 (ps ++ [p])
    apply LinearLayout_append
    · apply LinearLayout_congr ps 0 ?_ hl
      intro i hi1 hi2
      rw [memcpyBytes_frame (Or.inl (by omega)),
        storeU32_frame (Or.inl (by omega))]
    · have e0 : (0 : Nat) + sumAlloc ps = sumAlloc ps := by omega
      rw [e0]
      refine ⟨hloadPend, ?_, trivial⟩
      intro i hi
      have e1 : sumAlloc ps + 4 + i = (sumAlloc ps + 4) + i := by omega
      rw [e1, memcpyBytes_in hi]
      omega

theorem collect_suffix {buf : Prbuf} :
    ∀ (B : List (List Nat)) (c lenc fuel : Nat),
      loadU32 buf.data c = lenc →
      lenc ≤ availU buf →
      LinearLayout buf.data (c + 4 + lenc) B →
      (∀ q ∈ B, 0 < q.length) →
      c + 4 + lenc + sumAlloc B = buf.header.offset_end →
      buf.header.offset_end ≤ availU buf →
      B.length + 1 ≤ fuel →
      prbuf_collect buf (some c) fuel = expectedEntries (c + 4 + lenc) B := by
  intro B
  induction B with
  | nil =>
      intro c lenc fuel hload hle hlay hpos hsum hend hfuel
      obtain ⟨f, rfl⟩ : ∃ f, fuel = f + 1 := ⟨fuel - 1, by omega⟩
      rw [sumAlloc_nil] at hsum
      have hnext := next_at_end hload hle (by omega)
      rw [expectedEntries]
      apply collect_stop
      rw [hnext]
      simp [invalid_entry_invalid]
  | cons q B ih =>
      intro c lenc fuel hload hle hlay hpos hsum hend hfuel
      obtain ⟨f, rfl⟩ : ∃ f, fuel = f + 1 := ⟨fuel - 1, by omega⟩
      obtain ⟨hq1, hq2, hq3⟩ := hlay
      rw [sumAlloc_cons] at hsum
      have hM : availU buf < M32 := u32sub_lt _ _
      rw [M32_eq] at hM
      have hqpos : 0 < q.length := hpos q (List.mem_cons_self q B)
      have hBpos : ∀ r ∈ B, 0 < r.length := fun r hr =>
        hpos r (List.mem_cons_of_mem q hr)
      have hSB : sumAlloc B = 0 ∨ 5 ≤ sumAlloc B := by
        cases B with
        | nil => exact Or.inl sumAlloc_nil
        | cons r B2 =>
            exact Or.inr (sumAlloc_pos (by simp) hBpos)
      have hne : ¬ c + 4 + lenc = buf.header.offset_end := by omega
      have hroom : c + 4 + lenc + 4 ≤ availU buf := by omega
      have hnotmark :
          ¬ loadU32 buf.data (c + 4 + lenc) = prbuf_end_position := by
        rw [hq1]
        unfold prbuf_end_position
        omega
      have hnext := next_linear hload hle hne hroom hnotmark
      rw [expectedEntries]
      have hrc : (prbuf_iterator_next buf (some c)).rc = 0 := by rw [hnext]
      have hinv : prbuf_entry_is_invalid
          (prbuf_iterator_next buf (some c)).entry = false := by
        rw [hnext]
        exact entry_some_not_invalid _ _
      rw [collect_cons hrc hinv]
      rw [hnext]
      show ({ size := loadU32 buf.data (c + 4 + lenc),
              ptr := some (c + 4 + lenc + 4) } : PrbufEntry) ::
          prbuf_collect buf (some (c + 4 + lenc)) f = _
      rw [hq1]
      congr 1
      have hlay2 : LinearLayout buf.data (c + 4 + lenc + 4 + q.length) B := hq3
      have := ih (c + 4 + lenc) q.length f hq1 (by omega) hlay2 hBpos
        (by omega) hend (by simp at hfuel; omega)
      exact this

theorem linear_collect {N : Nat} {ps : List (List Nat)} {buf : Prbuf}
    (hstate : LinearState N ps buf) (hne : ps ≠ [])
    (hpos : ∀ p ∈ ps, 0 < p.length)
    (hN : 20 ≤ N) (hN2 : N < 2147483648)
    (hfit : sumAlloc ps ≤ N - 16) :
    ∀ fuel, ps.length + 1 ≤ fuel →
      prbuf_collect buf none fuel = expectedEntries 0 ps := by
  obtain ⟨hv, hs, hb, he, hl⟩ := hstate
  have havail : availU buf = N - 16 := by
    unfold availU
    rw [hs, show headerSize = 16 from rfl]
    exact u32sub_eq_sub (by omega) (by rw [M32_eq]; omega)
  cases ps with
  | nil => exact absurd rfl hne
  | cons p rest =>
      intro fuel hfuel
      obtain ⟨f, rfl⟩ : ∃ f, fuel = f + 1 := ⟨fuel - 1, by omega⟩
      obtain ⟨hp1, hp2, hp3⟩ := hl
      have hnext1 : prbuf_iterator_next buf none =
          { cur := some 0,
            entry := { size := p.length, ptr := some 4 }, rc := 0 } := by
        simp only [prbuf_iterator_next, hb, entry_meta_size, hp1]
      have hrc : (prbuf_iterator_next buf none).rc = 0 := by rw [hnext1]
      have hinv : prbuf_entry_is_invalid
          (prbuf_iterator_next buf none).entry = false := by
        rw [hnext1]
        exact entry_some_not_invalid _ _
      rw [collect_cons hrc hinv]
      rw [hnext1]
      show ({ size := p.length, ptr := some 4 } : PrbufEntry) ::
          prbuf_collect buf (some 0) f = _
      rw [sumAlloc_cons] at he hfit
      have hrestpos : ∀ r ∈ rest, 0 < r.length := fun r hr =>
        hpos r (List.mem_cons_of_mem p hr)
      have hppos : 0 < p.length := hpos p (List.mem_cons_self p rest)
      have hSrest : sumAlloc rest = 0 ∨ 5 ≤ sumAlloc rest := by
        cases rest with
        | nil => exact Or.inl sumAlloc_nil
        | cons r B2 => exact Or.inr (sumAlloc_pos (by simp) hrestpos)
      have hcoll := collect_suffix rest 0 p.length f hp1
        (by rw [havail]; omega) hp3 hrestpos (by omega)
        (by rw [havail]; omega) (by simp at hfuel; omega)
      rw [hcoll]
      show _ = expectedEntries 0 (p :: rest)
      rw [expectedEntries]

theorem expected_payloads {buf : Prbuf} :
    ∀ (B : List (List Nat)) (off : Nat),
      LinearLayout buf.data off B →
      (expectedEntries off B).map (fun e => (e.size, entryData buf e)) =
        B.map fun p => (p.length, p.map (· % 256)) := by
  intro B
  induction B with
  | nil => intro off hlay; rfl
  | cons q B ih =>
      intro off hlay
      obtain ⟨hq1, hq2, hq3⟩ := hlay
      rw [expectedEntries, List.map_cons, List.map_cons]
      congr 1
      · show (q.length, entryData buf { size := q.length, ptr := some (off + 4) }) = _
        unfold entryData
        congr 1
        apply List.ext_getElem
        · simp
        · intro i h1 h2
          simp only [List.getElem_map, List.getElem_range]
          have hi : i < q.length := by simpa using h2
          rw [← List.getD_eq_getElem q 0 hi]
          exact hq2 i hi
      · exact ih (off + 4 + q.length) hq3

theorem putSeq_linear {N : Nat} :
    ∀ (rest pre : List (List Nat)) (buf : Prbuf),
      LinearState N pre buf → pre ≠ [] →
      (∀ p ∈ pre, 0 < p.length) → (∀ p ∈ rest, 0 < p.length) →
      sumAlloc pre + sumAlloc rest ≤ N - 16 →
      20 ≤ N → N < 2147483648 →
      LinearState N (pre ++ rest) (prbuf_putSeq buf rest) := by
  intro rest
  induction rest with
  | nil =>
      intro pre buf hstate hne hpos hpos2 hsum hN hN2
      simpa [prbuf_putSeq] using hstate
  | cons r rest ih =>
      intro pre buf hstate hne hpos hpos2 hsum hN hN2
      have hrpos : 0 < r.length := hpos2 r (List.mem_cons_self r rest)
      have hrestpos : ∀ p ∈ rest, 0 < p.length := fun p hp =>
        hpos2 p (List.mem_cons_of_mem r hp)
      rw [sumAlloc_cons] at hsum
      have hstep := put_step r hstate hne hpos hrpos (by omega) hN hN2
      have hpos3 : ∀ p ∈ pre ++ [r], 0 < p.length := by
        intro p hp
        rcases List.mem_append.mp hp with h | h
        · exact hpos p h
        · rw [List.mem_singleton.mp h]
          exact hrpos
      have := ih (pre ++ [r]) (prbuf_put buf r) hstep (by simp) hpos3
        hrestpos (by rw [sumAlloc_append, sumAlloc_cons, sumAlloc_nil]; omega)
        hN hN2
      have heq : (pre ++ [r]) ++ rest = pre ++ (r :: rest) := by simp
      rw [heq] at this
      show LinearState N (pre ++ (r :: rest))
        (prbuf_putSeq (prbuf_put buf r) rest)
      exact this

/-- C1 (amended): for every nonempty sequence of prepare/commit pairs whose
records all fit in the buffer together with their size prefixes
(sum of (len + 4) at most N - HEADER_SIZE, so no committed record is ever
evicted), iterating afterwards yields exactly the committed payloads (bytes
taken modulo 256, as chars) in commit order, oldest first, and then reports
end: with any fuel beyond the number of records the collected list is exactly
the committed list. For the empty sequence the claim fails, see the
counterexample: create leaves a placeholder record that iteration yields. -/
theorem C1_roundtrip (mem : Nat → Nat) (N : Nat) (ps : List (List Nat))
    (hN : 20 ≤ N) (hN2 : N < 2147483648) (hne : ps ≠ [])
    (hpos : ∀ p ∈ ps, 0 < p.length) (hfit : sumAlloc ps ≤ N - 16) :
    ∀ fuel, ps.length + 1 ≤ fuel →
      collectPayloads (prbuf_putSeq (prbuf_create mem N) ps) fuel =
        ps.map fun p => (p.length, p.map (· % 256)) := by
  cases ps with
  | nil => exact absurd rfl hne
  | cons p rest =>
      intro fuel hfuel
      have hppos : 0 < p.length := hpos p (List.mem_cons_self p rest)
      have hrestpos : ∀ r ∈ rest, 0 < r.length := fun r hr =>
        hpos r (List.mem_cons_of_mem p hr)
      have hfit2 : p.length + 4 + sumAlloc rest ≤ N - 16 := by
        rw [sumAlloc_cons] at hfit
        omega
      have h1 : LinearState N [p] (prbuf_put (prbuf_create mem N) p) :=
        put_first mem p hN hN2 hppos (by omega)
      have h2 := putSeq_linear rest [p] (prbuf_put (prbuf_create mem N) p) h1
        (by simp)
        (fun q hq => by rw [List.mem_singleton.mp hq]; exact hppos)
        hrestpos
        (by rw [sumAlloc_cons, sumAlloc_nil]; omega) hN hN2
      have heq : ([p] ++ rest) = p :: rest := rfl
      rw [heq] at h2
      show collectPayloads
        (prbuf_putSeq (prbuf_put (prbuf_create mem N) p) rest) fuel = _
      unfold collectPayloads
      rw [linear_collect h2 (by simp) hpos hN hN2
        (by rw [sumAlloc_cons]; omega) fuel hfuel]
      exact expected_payloads (p :: rest) 0 h2.2.2.2.2

/-- C1 witness: two committed records on a 40-byte buffer (one payload byte
exceeding 255 to exhibit the char truncation) are recovered in order. -/
theorem C1_roundtrip_witness :
    collectPayloads (prbuf_putSeq (prbuf_create (fun _ => 0) 40)
      [[7, 8, 9, 300], [5]]) 3 = [(4, [7, 8, 9, 44]), (1, [5])] := by
  have h := C1_roundtrip (fun _ => 0) 40 [[7, 8, 9, 300], [5]]
    (by omega) (by omega) (by decide) (by decide) (by decide) 3 (by decide)
  rw [h]
  decide

end Prbuf
